import Mathlib

/-!
# Verification of the distributed bitonic sort (`arbitrary.cpp` / bitonic mode)

Shallow embedding of the repository's C++ source.  The MPI programs are
deterministic and lockstep, so their distributed state is modelled as a pure
function `Nat → List Int` mapping each rank to its local buffer; every
`MPI_Send`/`MPI_Recv` pair becomes a functional read of the sender's buffer at
the matching offsets.  Buffers are modelled by their meaningful prefixes: every
offset the C programs actually read falls inside the prefix written so far, so
the projection is exact.
-/

set_option maxRecDepth 40000

namespace BitonicSort

/-- The swap condition of `compareSwap`: the C source tests
`ascending ^ (subsequence[i] < subsequence[i+half])`. -/
def shouldSwap (ascending : Bool) (a b : Int) : Bool :=
  xor ascending (decide (a < b))

/-- `compareSwap(subsequence, n_elements, ascending)` from the source, on a
buffer holding exactly `n_elements` elements: with `half = n_elements / 2`,
each element `i < half` is compared with element `i + half` and the two are
swapped when `ascending ^ (a < b)` holds.  The result is the updated low half,
then the updated high half, then the untouched tail (empty for even length). -/
def compareSwap (ascending : Bool) (l : List Int) : List Int :=
  List.zipWith (fun a b => if shouldSwap ascending a b then b else a)
      (l.take (l.length / 2)) ((l.drop (l.length / 2)).take (l.length / 2))
    ++ List.zipWith (fun a b => if shouldSwap ascending a b then a else b)
      (l.take (l.length / 2)) ((l.drop (l.length / 2)).take (l.length / 2))
    ++ l.drop (l.length / 2 + l.length / 2)

/-- The C call `compareSwap(buf, m, ascending)` on a buffer that may be longer
than `m`: only the first `m` cells are touched. -/
def cswapPre (m : Nat) (ascending : Bool) (l : List Int) : List Int :=
  compareSwap ascending (l.take m) ++ l.drop m

/-- The loop body of `isInSubset`: `for (int i = 0; i < half; i += (half/step))
nodes.push_back(i + offset);` collecting the values of `i`.  The C loop does
not terminate when the increment `half / step` is zero, so the loop is
modelled with explicit fuel: `none` means the fuel ran out before the loop
exited. -/
def subsetLoop : Nat → Nat → Nat → Nat → Option (List Nat)
  | 0, _, _, _ => none
  | fuel + 1, half, d, i =>
    if i < half then (subsetLoop fuel half d (i + d)).map (fun t => i :: t)
    else some []

/-- The node list built by `isInSubset(half, step, offset)`.  Fuel `half + 1`
is sufficient whenever the increment `half / step` is positive, which holds at
every call site of the programs. -/
def subsetNodes (half step offset : Nat) : List Nat :=
  ((subsetLoop (half + 1) half (half / step) 0).getD []).map (fun i => i + offset)

/-- The membership lambda returned by `isInSubset`. -/
def isInSubset (half step offset rank : Nat) : Bool :=
  decide (rank ∈ subsetNodes half step offset)

/-- One round of the `while (m > 1)` loop of `bitonicSort`, acting on the
global state.  A sender (member of `isInSubset(n/2, step, master_node)`) sends
`buf[m .. 2m)` to rank `rank + m/2` and compare-swaps its low `m` cells; a
receiver (member of `isInSubset(n/2, step, master_node + m/2)`) overwrites its
low `m` cells with the data sent by rank `rank - m/2` and compare-swaps them;
everybody else is idle. -/
def mergeRound (ascending : Bool) (half master m step : Nat)
    (bufs : Nat → List Int) : Nat → List Int :=
  fun r =>
    if isInSubset half step master r then
      cswapPre m ascending (bufs r)
    else if isInSubset half step (master + m / 2) r then
      cswapPre m ascending (((bufs (r - m / 2)).drop m).take m ++ (bufs r).drop m)
    else bufs r

/-- The `while (m > 1) { ...; m /= 2; step *= 2; }` loop of `bitonicSort`,
with structural fuel (any fuel at least the number of rounds gives the loop's
result; the callers pass `n / 2`, which is ample). -/
def mergeLoop (ascending : Bool) (half master : Nat) :
    Nat → Nat → Nat → (Nat → List Int) → Nat → List Int
  | 0, _, _, bufs => bufs
  | fuel + 1, m, step, bufs =>
    if 1 < m then
      mergeLoop ascending half master fuel (m / 2) (step * 2)
        (mergeRound ascending half master m step bufs)
    else bufs

/-- The terminal manual gather of `bitonicSort`: the sub-master keeps its own
`buf[0..2)` and receives `buf[2i..2i+2)` from rank `master_node + i` for
`i = 1 .. n/2 - 1`: the assembled sequence is the concatenation of the first
two cells of each participating rank's buffer. -/
def gatherGroup (n master : Nat) (bufs : Nat → List Int) : List Int :=
  ((List.range (n / 2)).map (fun i => (bufs (master + i)).take 2)).flatten

/-- `bitonicSort(buf, n, master_node, rank, ascending)` from the source, as a
transformation of the global state: the sub-master first compare-swaps its
full `n`-cell buffer; the halving rounds run with `m` starting at `n / 2` and
`step` starting at `1`; finally the sub-master's buffer is replaced by the
gathered sequence (the slaves' buffers are only read by the gather). -/
def bitonicSort (ascending : Bool) (n master : Nat)
    (bufs : Nat → List Int) : Nat → List Int :=
  let start : Nat → List Int :=
    fun r => if r = master then cswapPre n ascending (bufs r) else bufs r
  let fin := mergeLoop ascending (n / 2) master (n / 2) (n / 2) 1 start
  fun r => if r = master then gatherGroup n master fin else fin r

/-- The regroup step before the level-`k` merge in `main` (arbitrary mode):
each rank `i < n/2` with `i % (k/4) = 0` sends `buf[0..k/2)` to its master
(`i` itself when `i % (k/2) = 0`, otherwise `i - k/4`); a master's buffer
becomes its own first `k/2` cells, then its partner's first `k/2` cells, then
its untouched cells from offset `k` on.  Ranks that are not masters keep
their buffers (sending does not modify them). -/
def regroup (n k : Nat) (bufs : Nat → List Int) : Nat → List Int :=
  fun r =>
    if r < n / 2 ∧ r % (k / 2) = 0 then
      (bufs r).take (k / 2) ++ (bufs (r + k / 4)).take (k / 2) ++ (bufs r).drop k
    else bufs r

/-- The per-level merge loop of `main` (arbitrary mode): rank `r` belongs to
group `i = r / (k/2)` with master `i * (k/2)`, and the group runs
`bitonicSort` with direction `ascending = (i % 2 == 0)`. -/
def mergeLevel (k : Nat) (bufs : Nat → List Int) : Nat → List Int :=
  fun r =>
    let i := r / (k / 2)
    bitonicSort (decide (i % 2 = 0)) k (i * (k / 2)) bufs r

/-- The values taken by `k` in `main`'s `int k = 4; while (k <= n) { ...; k *= 2; }`
loop, with structural fuel (`levels` passes fuel `n`, ample since `k` doubles). -/
def levelsAux (n : Nat) : Nat → Nat → List Nat
  | 0, _ => []
  | fuel + 1, k => if k ≤ n then k :: levelsAux n fuel (2 * k) else []

/-- The merge widths `4, 8, 16, …, n` iterated by `main`. -/
def levels (n : Nat) : List Nat := levelsAux n n 4

/-- The scatter plus initial pairwise compare-swap of `main`: rank `r`
receives cells `[2r, 2r+2)` of the root's sequence and compare-swaps them in
ascending order iff `r` is even. -/
def initStep (input : List Int) : Nat → List Int :=
  fun r => compareSwap (decide (r % 2 = 0)) ((input.drop (2 * r)).take 2)

/-- Folding the regroup-and-merge levels of `main`'s `while (k <= n)` loop. -/
def runLevels (n : Nat) : List Nat → (Nat → List Int) → Nat → List Int
  | [], bufs => bufs
  | k :: ks, bufs => runLevels n ks (mergeLevel k (regroup n k bufs))

/-- The full arbitrary-sequence pipeline of `main`, returning rank 0's final
buffer (the sequence the program prints). -/
def runPipeline (n : Nat) (input : List Int) : List Int :=
  runLevels n (levels n) (initStep input) 0

/-- The fixed test vector `A` that `main` sorts when `n == 16`. -/
def input16 : List Int := [10, 6, 14, 11, 9, 16, 3, 13, 8, 12, 5, 2, 4, 15, 1, 7]

/-! ## Spec-side definitions, used only to compare the source against the
specification's wording. -/

/-- The specification's swap condition for the Compare-Exchange primitive:
swap exactly when the relative order contradicts the direction, i.e. when
ascending is requested and element `i` is strictly larger, or descending is
requested and element `i` is strictly smaller. -/
def shouldSwapSpec (ascending : Bool) (a b : Int) : Bool :=
  if ascending then decide (b < a) else decide (a < b)

/-- The Compare-Exchange primitive as worded by the specification, pairing
element `i` with element `i + n/2` and swapping exactly on contradiction. -/
def compareSwapSpec (ascending : Bool) (l : List Int) : List Int :=
  List.zipWith (fun a b => if shouldSwapSpec ascending a b then b else a)
      (l.take (l.length / 2)) ((l.drop (l.length / 2)).take (l.length / 2))
    ++ List.zipWith (fun a b => if shouldSwapSpec ascending a b then a else b)
      (l.take (l.length / 2)) ((l.drop (l.length / 2)).take (l.length / 2))
    ++ l.drop (l.length / 2 + l.length / 2)

/-- The specification's arithmetic description of a round's sender subset:
the `step` ranks `master, master + m, …, master + (step-1)·m`. -/
def isSenderSpec (master m step r : Nat) : Bool :=
  decide (master ≤ r) && decide ((r - master) % m = 0) && decide (r < master + step * m)

/-- The specification's receiver subset: senders shifted by `m / 2`. -/
def isReceiverSpec (master m step r : Nat) : Bool :=
  isSenderSpec (master + m / 2) m step r

/-- One merge round as worded by the specification (§4.3 step 2): roles are
determined arithmetically, each sender compare-exchanges its remaining low
`m` cells after transmitting `buf[m..2m)` to rank `r + m/2`, and each
receiver places the `m` cells sent by rank `r - m/2` at offsets `[0, m)` and
compare-exchanges them. -/
def mergeRoundSpec (ascending : Bool) (master m step : Nat)
    (bufs : Nat → List Int) : Nat → List Int :=
  fun r =>
    if isSenderSpec master m step r then
      cswapPre m ascending (bufs r)
    else if isReceiverSpec master m step r then
      cswapPre m ascending (((bufs (r - m / 2)).drop m).take m ++ (bufs r).drop m)
    else bufs r

/-- The round parameters `(m, step)` enumerated by the specification for a
merge whose first round has half-width `2^a` and stride `step`: the
half-width halves and the stride doubles until the half-width reaches 1. -/
def roundsFromExp : Nat → Nat → List (Nat × Nat)
  | 0, _ => []
  | a + 1, step => (2 ^ (a + 1), step) :: roundsFromExp a (step * 2)

/-- The Merge Engine as worded by the specification (§4.3) for a group of
width `k = 2^(t+2)`: the sub-coordinator first compare-exchanges its full
`k`-cell buffer, then the rounds `m = k/2, k/4, …, 2` run with arithmetic
role assignment, and finally the group is gathered at the sub-coordinator. -/
def mergeEngineSpec (ascending : Bool) (t master : Nat)
    (bufs : Nat → List Int) : Nat → List Int :=
  let start : Nat → List Int :=
    fun r => if r = master then cswapPre (2 ^ (t + 2)) ascending (bufs r) else bufs r
  let fin := (roundsFromExp (t + 1) 1).foldl
    (fun b p => mergeRoundSpec ascending master p.1 p.2 b) start
  fun r => if r = master then gatherGroup (2 ^ (t + 2)) master fin else fin r

/-! ## Observable actions of `main` (for the error-handling claim) -/

/-- The externally observable actions relevant to the error-handling design:
collective or point-to-point exchanges, and a reported topology error. -/
inductive MainAction
  | scatter
  | pointToPoint
  | reportTopologyError
  deriving DecidableEq

/-- The ordered communication/error actions performed by `main` (arbitrary
mode) for a given `nb_instances`: after deriving `n = (nb_instances - 1) * 2`
and initialising the sequence (both purely local), `main` immediately
scatters and then performs the point-to-point exchanges of each level's
regroup and merge.  The source contains no topology validation and no error
report of any kind. -/
def mainTrace (nb_instances : Nat) : List MainAction :=
  MainAction.scatter ::
    (levels ((nb_instances - 1) * 2)).map (fun _ => MainAction.pointToPoint)

/-- Modelled from the spec: the topology constraint of §6 — the sequence
length `n` must be a power of two at least 4 (the worker-count half of the
constraint holds by construction, since `main` derives `n` as twice the
worker count). -/
def validTopology (n : Nat) : Bool :=
  decide (4 ≤ n) && decide (n &&& (n - 1) = 0)

/-- The multiset of elements collectively held by the nodes that are active
before the round of half-width `m`: the `step` senders `master + j·m`
(`j < step`) each own the `2m` meaningful cells of their buffer.  This is the
invariant quantity of the halving rounds. -/
def activeMS (m step master : Nat) (bufs : Nat → List Int) : Multiset Int :=
  ((List.range step).map
    (fun j => ((bufs (master + j * m)).take (2 * m) : Multiset Int))).sum

/-! ## Basic lemmas about `isInSubset` -/

theorem subsetLoop_closed (d : Nat) (hd : 0 < d) :
    ∀ (s : Nat), ∀ (i fuel : Nat), s < fuel →
      subsetLoop fuel (i + s * d) d i =
        some ((List.range s).map (fun j => i + j * d)) := by
  intro s
  induction s with
  | zero =>
    intro i fuel hfuel
    obtain ⟨f, rfl⟩ : ∃ f, fuel = f + 1 := ⟨fuel - 1, by omega⟩
    simp [subsetLoop]
  | succ s ih =>
    intro i fuel hfuel
    obtain ⟨f, rfl⟩ : ∃ f, fuel = f + 1 := ⟨fuel - 1, by omega⟩
    have hsd : (s + 1) * d = s * d + d := Nat.succ_mul s d
    have hlt : i < i + (s + 1) * d := by omega
    have harg : i + (s + 1) * d = (i + d) + s * d := by omega
    have hrec := ih (i + d) f (by omega)
    have hlist : (List.range (s + 1)).map (fun j => i + j * d)
        = i :: (List.range s).map (fun j => (i + d) + j * d) := by
      rw [List.range_succ_eq_map, List.map_cons, List.map_map]
      have h0 : i + 0 * d = i := by omega
      rw [h0]
      congr 1
      apply List.map_congr_left
      intro j _
      show i + (j + 1) * d = (i + d) + j * d
      have : (j + 1) * d = j * d + d := Nat.succ_mul j d
      omega
    rw [subsetLoop, if_pos hlt, harg, hrec, Option.map_some', hlist]

theorem subsetNodes_eq (step c offset : Nat) (hstep : 0 < step) (hc : 0 < c) :
    subsetNodes (step * c) step offset =
      (List.range step).map (fun j => j * c + offset) := by
  have hdiv : step * c / step = c := Nat.mul_div_cancel_left c hstep
  have hmul : step * 1 ≤ step * c := Nat.mul_le_mul_left step hc
  have hfuel : step < step * c + 1 := by omega
  have hclosed := subsetLoop_closed c hc step 0 (step * c + 1) hfuel
  simp only [Nat.zero_add] at hclosed
  simp only [subsetNodes, hdiv, hclosed, Option.getD_some, List.map_map]
  rfl

theorem mem_subsetNodes (step c offset r : Nat) (hstep : 0 < step) (hc : 0 < c) :
    r ∈ subsetNodes (step * c) step offset ↔ ∃ j, j < step ∧ r = j * c + offset := by
  rw [subsetNodes_eq step c offset hstep hc]
  simp only [List.mem_map, List.mem_range]
  constructor
  · rintro ⟨j, hj, rfl⟩; exact ⟨j, hj, rfl⟩
  · rintro ⟨j, hj, rfl⟩; exact ⟨j, hj, rfl⟩

/-! ## C3: the role-assignment subset -/

/-- C3 counterexample: with half-width 5, stride 2 (so `h/s = 2 ≥ 1`) and
offset 0, the generated subset is `{0, 2, 4}`: it has 3 elements, not
`s = 2`, and rank 4 is a member although `4 = 0 + j·(5/2)` has no solution
with `j < 2`.  The claimed characterisation requires `s ∣ h`. -/
theorem c3_counterexample :
    isInSubset 5 2 0 4 = true
    ∧ (4 : Nat) ≠ 0 + 0 * (5 / 2)
    ∧ (4 : Nat) ≠ 0 + 1 * (5 / 2)
    ∧ (subsetNodes 5 2 0).length = 3 := by decide

/-- C3 amended: when the stride `s` divides the half-width `h` (as it does at
every call site, where both are powers of two with `s ≤ h`), the predicate
returned by `isInSubset(h, s, o)` is true on `r` exactly when
`r = o + j·(h/s)` for some `j < s`, and the generated subset consists of
exactly `s` distinct ranks. -/
theorem c3_role_subset_amended (half step offset rank : Nat) (hstep : 0 < step)
    (hhalf : 0 < half) (hdvd : step ∣ half) :
    (isInSubset half step offset rank = true ↔
      ∃ j, j < step ∧ rank = offset + j * (half / step))
    ∧ (subsetNodes half step offset).length = step
    ∧ (subsetNodes half step offset).Nodup := by
  obtain ⟨c, hc⟩ := hdvd
  have hcpos : 0 < c := by
    rcases Nat.eq_zero_or_pos c with h0 | h
    · rw [h0, Nat.mul_zero] at hc; omega
    · exact h
  have hdiv : half / step = c := by rw [hc, Nat.mul_div_cancel_left c hstep]
  subst hc
  refine ⟨?_, ?_, ?_⟩
  · rw [isInSubset, decide_eq_true_iff, mem_subsetNodes step c offset rank hstep hcpos]
    constructor
    · rintro ⟨j, hj, rfl⟩
      exact ⟨j, hj, by rw [hdiv]; omega⟩
    · rintro ⟨j, hj, hr⟩
      exact ⟨j, hj, by rw [hdiv] at hr; omega⟩
  · rw [subsetNodes_eq step c offset hstep hcpos]
    simp
  · rw [subsetNodes_eq step c offset hstep hcpos]
    refine List.Nodup.map ?_ (List.nodup_range step)
    intro a b hab
    simp only at hab
    have : a * c = b * c := by omega
    exact Nat.eq_of_mul_eq_mul_right hcpos this

theorem c3_witness :
    (isInSubset 4 2 3 5 = true ↔ ∃ j, j < 2 ∧ 5 = 3 + j * (4 / 2))
    ∧ (subsetNodes 4 2 3).length = 2
    ∧ (subsetNodes 4 2 3).Nodup :=
  c3_role_subset_amended 4 2 3 5 (by decide) (by decide) (by decide)

/-! ## C10: termination of `isInSubset` -/

theorem subsetLoop_isSome (half d : Nat) (hd : 0 < d) :
    ∀ (fuel i : Nat), half - i < fuel → (subsetLoop fuel half d i).isSome = true := by
  intro fuel
  induction fuel with
  | zero => intro i h; omega
  | succ f ih =>
    intro i h
    by_cases hi : i < half
    · simp only [subsetLoop, if_pos hi, Option.isSome_map']
      exact ih (i + d) (by omega)
    · simp [subsetLoop, hi]

theorem subsetLoop_none_of_zero_incr (half : Nat) :
    ∀ (fuel i : Nat), i < half → subsetLoop fuel half 0 i = none := by
  intro fuel
  induction fuel with
  | zero => intro i _; rfl
  | succ f ih =>
    intro i h
    simp only [subsetLoop, if_pos h, Nat.add_zero, ih i h, Option.map_none']

/-- C10: the `isInSubset` loop terminates whenever `1 ≤ step ≤ half` (the
increment `half/step` is then at least 1), which covers every invocation of
the merge loops; when `step > half ≥ 1` the increment `half/step` is 0 and
the loop never terminates (it returns `none` for every amount of fuel). -/
theorem c10_isInSubset_termination (half step : Nat) :
    (1 ≤ step → step ≤ half → ∀ fuel, half < fuel →
      (subsetLoop fuel half (half / step) 0).isSome = true)
    ∧ (1 ≤ half → half < step →
        half / step = 0 ∧ ∀ fuel, subsetLoop fuel half (half / step) 0 = none) := by
  constructor
  · intro hstep hle fuel hfuel
    have hd : 0 < half / step := (Nat.one_le_div_iff hstep).mpr hle
    exact subsetLoop_isSome half (half / step) hd fuel 0 (by omega)
  · intro hhalf hlt
    have hz : half / step = 0 := Nat.div_eq_of_lt hlt
    refine ⟨hz, fun fuel => ?_⟩
    rw [hz]
    exact subsetLoop_none_of_zero_incr half fuel 0 (by omega)

theorem c10_witness :
    (subsetLoop 5 4 (4 / 2) 0).isSome = true
    ∧ (4 : Nat) / 5 = 0
    ∧ subsetLoop 3 4 (4 / 5) 0 = none :=
  ⟨(c10_isInSubset_termination 4 2).1 (by decide) (by decide) 5 (by decide),
    ((c10_isInSubset_termination 4 5).2 (by decide) (by decide)).1,
    ((c10_isInSubset_termination 4 5).2 (by decide) (by decide)).2 3⟩

/-! ## C9: no topology validation exists in the source -/

/-- C9 counterexample: with `nb_instances = 4` the derived sequence length is
`N = 6`, which is not a power of two, yet `main` reports no topology error at
all — its first observable action is already the scatter. -/
theorem c9_counterexample :
    validTopology ((4 - 1) * 2) = false
    ∧ MainAction.reportTopologyError ∉ mainTrace 4
    ∧ (mainTrace 4).head? = some MainAction.scatter := by decide

/-- C9 amended: the program performs no topology validation whatsoever.  The
worker-count half of the constraint holds vacuously by construction (`main`
derives `N` as twice the worker count), and when `N` is not a power of two
`≥ 4` no error is reported: for every instance count the trace contains no
topology-error report and begins directly with the scatter. -/
theorem c9_no_topology_error_amended (nb_instances : Nat) :
    MainAction.reportTopologyError ∉ mainTrace nb_instances
    ∧ (mainTrace nb_instances).head? = some MainAction.scatter
    ∧ nb_instances - 1 = ((nb_instances - 1) * 2) / 2 := by
  refine ⟨?_, rfl, by omega⟩
  intro hmem
  rcases List.mem_cons.mp hmem with h | h
  · exact MainAction.noConfusion h
  · rcases List.mem_map.mp h with ⟨a, _, hmap⟩
    exact MainAction.noConfusion hmap

/-! ## C1: the end-to-end example -/

/-- C1: running the full arbitrary-sequence pipeline (scatter, initial
pairwise compare-exchange, then the regroup-and-merge loop for widths
`k = 4, 8, 16`) on the fixed 16-element test vector yields the fully sorted
sequence at rank 0. -/
theorem c1_end_to_end :
    runPipeline 16 input16 =
      [1, 2, 3, 4, 5, 6, 7, 8, 9, 10, 11, 12, 13, 14, 15, 16] := by decide

/-! ## Index lemmas for the Compare-Exchange primitive -/

theorem getD_zipWith (f : Int → Int → Int) (as bs : List Int) (i : Nat) (d : Int)
    (h1 : i < as.length) (h2 : i < bs.length) :
    (List.zipWith f as bs).getD i d = f (as.getD i d) (bs.getD i d) := by
  have hz : i < (List.zipWith f as bs).length := by
    rw [List.length_zipWith]; exact lt_min h1 h2
  rw [List.getD_eq_getElem _ _ hz, List.getD_eq_getElem _ _ h1,
    List.getD_eq_getElem _ _ h2, List.getElem_zipWith]

theorem getD_take (l : List Int) (n i : Nat) (d : Int) (hi : i < n) (hl : i < l.length) :
    (l.take n).getD i d = l.getD i d := by
  have h : i < (l.take n).length := by
    rw [List.length_take]; omega
  rw [List.getD_eq_getElem _ _ h, List.getD_eq_getElem _ _ hl, List.getElem_take]

theorem getD_drop (l : List Int) (n i : Nat) (d : Int) (h : n + i < l.length) :
    (l.drop n).getD i d = l.getD (n + i) d := by
  have h2 : i < (l.drop n).length := by
    rw [List.length_drop]; omega
  rw [List.getD_eq_getElem _ _ h2, List.getD_eq_getElem _ _ h, List.getElem_drop]

theorem compareSwap_length (ascending : Bool) (l : List Int) :
    (compareSwap ascending l).length = l.length := by
  simp only [compareSwap, List.length_append, List.length_zipWith, List.length_take,
    List.length_drop]
  omega

theorem compareSwap_lo_length (ascending : Bool) (l : List Int) :
    (List.zipWith (fun a b => if shouldSwap ascending a b then b else a)
      (l.take (l.length / 2)) ((l.drop (l.length / 2)).take (l.length / 2))).length
      = l.length / 2 := by
  simp only [List.length_zipWith, List.length_take, List.length_drop]
  omega

theorem compareSwap_hi_length (ascending : Bool) (l : List Int) :
    (List.zipWith (fun a b => if shouldSwap ascending a b then a else b)
      (l.take (l.length / 2)) ((l.drop (l.length / 2)).take (l.length / 2))).length
      = l.length / 2 := by
  simp only [List.length_zipWith, List.length_take, List.length_drop]
  omega

theorem compareSwap_getD_lo (ascending : Bool) (l : List Int) (i : Nat)
    (hi : i < l.length / 2) :
    (compareSwap ascending l).getD i 0 =
      if shouldSwap ascending (l.getD i 0) (l.getD (l.length / 2 + i) 0)
      then l.getD (l.length / 2 + i) 0 else l.getD i 0 := by
  have hd2 : l.length / 2 + l.length / 2 ≤ l.length := by omega
  rw [compareSwap, List.getD_append _ _ _ _ (by
    rw [List.length_append, compareSwap_lo_length, compareSwap_hi_length]; omega)]
  rw [List.getD_append _ _ _ _ (by rw [compareSwap_lo_length]; omega)]
  rw [getD_zipWith _ _ _ _ _ (by rw [List.length_take]; omega)
    (by rw [List.length_take, List.length_drop]; omega)]
  rw [getD_take _ _ _ _ hi (by omega), getD_take _ _ _ _ hi (by rw [List.length_drop]; omega),
    getD_drop _ _ _ _ (by omega)]

theorem compareSwap_getD_hi (ascending : Bool) (l : List Int) (i : Nat)
    (hi : i < l.length / 2) :
    (compareSwap ascending l).getD (l.length / 2 + i) 0 =
      if shouldSwap ascending (l.getD i 0) (l.getD (l.length / 2 + i) 0)
      then l.getD i 0 else l.getD (l.length / 2 + i) 0 := by
  have hd2 : l.length / 2 + l.length / 2 ≤ l.length := by omega
  rw [compareSwap, List.getD_append _ _ _ _ (by
    rw [List.length_append, compareSwap_lo_length, compareSwap_hi_length]; omega)]
  rw [List.getD_append_right _ _ _ _ (by rw [compareSwap_lo_length]; omega)]
  rw [compareSwap_lo_length]
  rw [show l.length / 2 + i - l.length / 2 = i from by omega]
  rw [getD_zipWith _ _ _ _ _ (by rw [List.length_take]; omega)
    (by rw [List.length_take, List.length_drop]; omega)]
  rw [getD_take _ _ _ _ hi (by omega), getD_take _ _ _ _ hi (by rw [List.length_drop]; omega),
    getD_drop _ _ _ _ (by omega)]

theorem compareSwap_getD_tail (ascending : Bool) (l : List Int) (i : Nat)
    (hi : l.length / 2 + l.length / 2 ≤ i) :
    (compareSwap ascending l).getD i 0 = l.getD i 0 := by
  by_cases hl : i < l.length
  · rw [compareSwap, List.getD_append_right _ _ _ _ (by
      rw [List.length_append, compareSwap_lo_length, compareSwap_hi_length]; omega)]
    rw [List.length_append, compareSwap_lo_length, compareSwap_hi_length]
    rw [getD_drop _ _ _ _ (by omega)]
    rw [show l.length / 2 + l.length / 2 + (i - (l.length / 2 + l.length / 2)) = i
      from by omega]
  · rw [List.getD_eq_default _ _ (by rw [compareSwap_length]; omega),
      List.getD_eq_default _ _ (by omega)]

/-! ## The Compare-Exchange primitive preserves the multiset of elements -/

theorem ms_zipWith_swap (f g : Int → Int → Int)
    (hfg : ∀ a b, (f a b = a ∧ g a b = b) ∨ (f a b = b ∧ g a b = a)) :
    ∀ (as bs : List Int), as.length = bs.length →
      (List.zipWith f as bs : Multiset Int) + (List.zipWith g as bs : Multiset Int)
        = (as : Multiset Int) + (bs : Multiset Int) := by
  intro as
  induction as with
  | nil =>
    intro bs h
    have : bs = [] := by
      cases bs with
      | nil => rfl
      | cons b bs => simp at h
    subst this
    simp
  | cons a as ih =>
    intro bs h
    cases bs with
    | nil => simp at h
    | cons b bs =>
      have hlen : as.length = bs.length := by
        simpa using h
      rw [List.zipWith_cons_cons, List.zipWith_cons_cons]
      rw [← Multiset.cons_coe, ← Multiset.cons_coe, ← Multiset.cons_coe, ← Multiset.cons_coe]
      rw [Multiset.cons_add, Multiset.add_cons, Multiset.cons_add, Multiset.add_cons]
      rw [ih bs hlen]
      rcases hfg a b with ⟨h1, h2⟩ | ⟨h1, h2⟩
      · rw [h1, h2]
      · rw [h1, h2, Multiset.cons_swap]

theorem compareSwap_perm (ascending : Bool) (l : List Int) :
    (compareSwap ascending l : Multiset Int) = (l : Multiset Int) := by
  have hlen : (l.take (l.length / 2)).length
      = ((l.drop (l.length / 2)).take (l.length / 2)).length := by
    simp only [List.length_take, List.length_drop]
    omega
  have hkey := ms_zipWith_swap
    (fun a b => if shouldSwap ascending a b then b else a)
    (fun a b => if shouldSwap ascending a b then a else b)
    (fun a b => by
      by_cases h : shouldSwap ascending a b
      · exact Or.inr ⟨if_pos h, if_pos h⟩
      · exact Or.inl ⟨if_neg h, if_neg h⟩)
    (l.take (l.length / 2)) ((l.drop (l.length / 2)).take (l.length / 2)) hlen
  have hsplit : (l : Multiset Int)
      = (l.take (l.length / 2) : Multiset Int)
        + ((l.drop (l.length / 2)).take (l.length / 2) : Multiset Int)
        + (l.drop (l.length / 2 + l.length / 2) : Multiset Int) := by
    conv_lhs => rw [← List.take_append_drop (l.length / 2) l]
    rw [← Multiset.coe_add]
    conv_lhs => rw [← List.take_append_drop (l.length / 2) (l.drop (l.length / 2))]
    rw [← Multiset.coe_add, List.drop_drop, add_assoc]
  rw [compareSwap, ← Multiset.coe_add, ← Multiset.coe_add, hkey, hsplit]

/-! ## Value-level behaviour of the swap condition -/

theorem shouldSwap_false_iff (a b : Int) : shouldSwap false a b = true ↔ a < b := by
  simp [shouldSwap]

theorem shouldSwap_true_iff (a b : Int) : shouldSwap true a b = true ↔ ¬a < b := by
  simp [shouldSwap]

/-- At the value level, the source's swap condition and the specification's
strict-contradiction condition select the same first component: they differ
only on ties (ascending), where the swapped pair equals the original pair. -/
theorem swap_fst_eq_spec (ascending : Bool) (a b : Int) :
    (if shouldSwap ascending a b then b else a)
      = (if shouldSwapSpec ascending a b then b else a) := by
  cases ascending with
  | false => simp [shouldSwap, shouldSwapSpec]
  | true =>
    rcases lt_trichotomy a b with h | h | h
    · simp [shouldSwap, shouldSwapSpec, h, asymm h]
    · subst h
      simp [shouldSwap, shouldSwapSpec]
    · simp [shouldSwap, shouldSwapSpec, h, asymm h]

/-- Companion of `swap_fst_eq_spec` for the second component. -/
theorem swap_snd_eq_spec (ascending : Bool) (a b : Int) :
    (if shouldSwap ascending a b then a else b)
      = (if shouldSwapSpec ascending a b then a else b) := by
  cases ascending with
  | false => simp [shouldSwap, shouldSwapSpec]
  | true =>
    rcases lt_trichotomy a b with h | h | h
    · simp [shouldSwap, shouldSwapSpec, h, asymm h]
    · subst h
      simp [shouldSwap, shouldSwapSpec]
    · simp [shouldSwap, shouldSwapSpec, h, asymm h]

theorem zipWith_ext (f g : Int → Int → Int) (h : ∀ a b, f a b = g a b) :
    ∀ (as bs : List Int), List.zipWith f as bs = List.zipWith g as bs := by
  intro as
  induction as with
  | nil => intro bs; rfl
  | cons a as ih =>
    intro bs
    cases bs with
    | nil => rfl
    | cons b bs => rw [List.zipWith_cons_cons, List.zipWith_cons_cons, h, ih]

theorem compareSwap_eq_spec (ascending : Bool) (l : List Int) :
    compareSwap ascending l = compareSwapSpec ascending l := by
  rw [compareSwap, compareSwapSpec,
    zipWith_ext _ _ (swap_fst_eq_spec ascending),
    zipWith_ext _ _ (swap_snd_eq_spec ascending)]

/-- Applying the pair-level compare-exchange twice is the same as applying it
once (value level). -/
theorem swap_pair_idem (ascending : Bool) (x y : Int) :
    (if shouldSwap ascending (if shouldSwap ascending x y then y else x)
          (if shouldSwap ascending x y then x else y)
      then (if shouldSwap ascending x y then x else y)
      else (if shouldSwap ascending x y then y else x))
      = (if shouldSwap ascending x y then y else x)
    ∧ (if shouldSwap ascending (if shouldSwap ascending x y then y else x)
          (if shouldSwap ascending x y then x else y)
      then (if shouldSwap ascending x y then y else x)
      else (if shouldSwap ascending x y then x else y))
      = (if shouldSwap ascending x y then x else y) := by
  cases ascending with
  | false =>
    rcases lt_trichotomy x y with h | h | h
    · simp [shouldSwap, h, asymm h]
    · subst h
      simp [shouldSwap]
    · simp [shouldSwap, h, asymm h]
  | true =>
    rcases lt_trichotomy x y with h | h | h
    · simp [shouldSwap, h, asymm h]
    · subst h
      simp [shouldSwap]
    · simp [shouldSwap, h, asymm h]

/-! ## C2: the Compare-Exchange contract -/

/-- C2: for every even-length buffer and every direction, `compareSwap`
pairs element `i` with element `i + n/2`; at the value level the pair is
swapped exactly when its order contradicts the direction (the source's tie
swap in ascending mode is the identity on values, so the result coincides
with the specification-worded `compareSwapSpec`); afterwards each pair is
ordered according to the direction, and the result is a permutation of the
input obtained only by swaps within pairs. -/
theorem c2_compare_swap_contract (ascending : Bool) (l : List Int)
    (heven : 2 ∣ l.length) :
    compareSwap ascending l = compareSwapSpec ascending l
    ∧ (∀ i, i < l.length / 2 →
        ((compareSwap ascending l).getD i 0,
          (compareSwap ascending l).getD (i + l.length / 2) 0)
          = if (ascending = true ∧ l.getD (i + l.length / 2) 0 < l.getD i 0)
              ∨ (ascending = false ∧ l.getD i 0 < l.getD (i + l.length / 2) 0)
            then (l.getD (i + l.length / 2) 0, l.getD i 0)
            else (l.getD i 0, l.getD (i + l.length / 2) 0))
    ∧ (∀ i, i < l.length / 2 →
        (ascending = true →
          (compareSwap ascending l).getD i 0
            ≤ (compareSwap ascending l).getD (i + l.length / 2) 0)
        ∧ (ascending = false →
          (compareSwap ascending l).getD (i + l.length / 2) 0
            ≤ (compareSwap ascending l).getD i 0))
    ∧ (compareSwap ascending l : Multiset Int) = (l : Multiset Int) := by
  refine ⟨compareSwap_eq_spec ascending l, ?_, ?_, compareSwap_perm ascending l⟩
  · intro i hi
    rw [show i + l.length / 2 = l.length / 2 + i from by omega]
    rw [compareSwap_getD_lo ascending l i hi, compareSwap_getD_hi ascending l i hi]
    set x := l.getD i 0 with hxdef
    set y := l.getD (l.length / 2 + i) 0 with hydef
    clear_value x y
    cases ascending with
    | false =>
      rcases lt_trichotomy x y with h | h | h
      · simp [shouldSwap, h, asymm h]
      · simp [shouldSwap, h]
      · simp [shouldSwap, h, asymm h]
    | true =>
      rcases lt_trichotomy x y with h | h | h
      · simp [shouldSwap, h, asymm h]
      · simp [shouldSwap, h]
      · simp [shouldSwap, h, asymm h]
  · intro i hi
    rw [show i + l.length / 2 = l.length / 2 + i from by omega]
    rw [compareSwap_getD_lo ascending l i hi, compareSwap_getD_hi ascending l i hi]
    set x := l.getD i 0 with hxdef
    set y := l.getD (l.length / 2 + i) 0 with hydef
    clear_value x y
    cases ascending with
    | false =>
      refine ⟨(fun ha => nomatch ha), fun _ => ?_⟩
      by_cases hc : x < y
      · simp [shouldSwap, hc, le_of_lt hc]
      · simp [shouldSwap, hc, le_of_not_lt hc]
    | true =>
      refine ⟨fun _ => ?_, (fun ha => nomatch ha)⟩
      by_cases hc : x < y
      · simp [shouldSwap, hc, le_of_lt hc]
      · simp [shouldSwap, hc, le_of_not_lt hc]

theorem c2_witness :
    2 ∣ ([2, 1] : List Int).length
    ∧ compareSwap true [2, 1] = compareSwapSpec true [2, 1]
    ∧ (compareSwap true [2, 1] : Multiset Int) = (([2, 1] : List Int) : Multiset Int) :=
  ⟨by decide, (c2_compare_swap_contract true [2, 1] (by decide)).1,
    (c2_compare_swap_contract true [2, 1] (by decide)).2.2.2⟩

/-! ## C7: ties -/

/-- C7 counterexample: in ascending mode the source's swap condition
`ascending ^ (a < b)` fires on a tie (the effective test is the non-strict
`a >= b`, not a strict one): for the buffer `[5, 5]`, direction ascending and
index 0, the two paired elements are equal and the swap branch is taken. -/
theorem c7_counterexample :
    shouldSwap true (([5, 5] : List Int).getD 0 0)
        (([5, 5] : List Int).getD (0 + ([5, 5] : List Int).length / 2) 0) = true
    ∧ ([5, 5] : List Int).getD 0 0
        = ([5, 5] : List Int).getD (0 + ([5, 5] : List Int).length / 2) 0 := by decide

/-- C7 amended: ties never alter the buffer.  If elements `i` and `i + n/2`
are equal, both positions hold their original values after `compareSwap`
(in descending mode the swap branch is indeed not triggered, since there the
condition reduces to the strict test `a < b`; in ascending mode the branch
does fire on a tie, but swapping equal values is the identity). -/
theorem c7_ties_amended (ascending : Bool) (l : List Int) (i : Nat)
    (hi : i < l.length / 2)
    (ht : l.getD i 0 = l.getD (i + l.length / 2) 0) :
    (compareSwap ascending l).getD i 0 = l.getD i 0
    ∧ (compareSwap ascending l).getD (i + l.length / 2) 0
        = l.getD (i + l.length / 2) 0
    ∧ shouldSwap false (l.getD i 0) (l.getD (i + l.length / 2) 0) = false := by
  rw [show i + l.length / 2 = l.length / 2 + i from by omega] at ht ⊢
  rw [compareSwap_getD_lo ascending l i hi, compareSwap_getD_hi ascending l i hi]
  set x := l.getD i 0 with hxdef
  set y := l.getD (l.length / 2 + i) 0 with hydef
  clear_value x y
  refine ⟨?_, ?_, ?_⟩ <;> rw [← ht] <;> simp [shouldSwap]

theorem c7_witness :
    (compareSwap true [7, 7]).getD 0 0 = ([7, 7] : List Int).getD 0 0
    ∧ (compareSwap true [7, 7]).getD (0 + ([7, 7] : List Int).length / 2) 0
        = ([7, 7] : List Int).getD (0 + ([7, 7] : List Int).length / 2) 0
    ∧ shouldSwap false (([7, 7] : List Int).getD 0 0)
        (([7, 7] : List Int).getD (0 + ([7, 7] : List Int).length / 2) 0) = false :=
  c7_ties_amended true [7, 7] 0 (by decide) (by decide)

/-! ## C8: idempotence -/

/-- C8: applying `compareSwap` twice in a row with the same direction gives
the same buffer as applying it once (proved for every buffer, in particular
the even-length ones of the claim). -/
theorem c8_idempotent (ascending : Bool) (l : List Int) :
    compareSwap ascending (compareSwap ascending l) = compareSwap ascending l := by
  have hL : (compareSwap ascending l).length = l.length := compareSwap_length ascending l
  apply List.ext_getElem (by rw [compareSwap_length, hL])
  intro n h1 h2
  rw [← List.getD_eq_getElem _ 0 h1, ← List.getD_eq_getElem _ 0 h2]
  by_cases hlo : n < l.length / 2
  · rw [compareSwap_getD_lo ascending (compareSwap ascending l) n (by rw [hL]; exact hlo)]
    rw [hL]
    rw [compareSwap_getD_lo ascending l n hlo, compareSwap_getD_hi ascending l n hlo]
    exact (swap_pair_idem ascending (l.getD n 0) (l.getD (l.length / 2 + n) 0)).1
  · by_cases hhi : n < l.length / 2 + l.length / 2
    · obtain ⟨i, hi, rfl⟩ : ∃ i, i < l.length / 2 ∧ n = l.length / 2 + i :=
        ⟨n - l.length / 2, by omega, by omega⟩
      have hLhalf : (compareSwap ascending l).length / 2 = l.length / 2 := by rw [hL]
      rw [show l.length / 2 + i = (compareSwap ascending l).length / 2 + i from by
        rw [hLhalf]]
      rw [compareSwap_getD_hi ascending (compareSwap ascending l) i (by
        rw [hLhalf]; exact hi)]
      rw [hLhalf]
      rw [compareSwap_getD_lo ascending l i hi, compareSwap_getD_hi ascending l i hi]
      exact (swap_pair_idem ascending (l.getD i 0) (l.getD (l.length / 2 + i) 0)).2
    · rw [compareSwap_getD_tail ascending (compareSwap ascending l) n (by rw [hL]; omega)]

/-! ## C4: sender and receiver subsets of a merge round -/

theorem range_mul_add_nodup (step m base : Nat) (hm : 0 < m) :
    ((List.range step).map (fun j => j * m + base)).Nodup := by
  refine List.Nodup.map ?_ (List.nodup_range step)
  intro a b hab
  simp only at hab
  have : a * m = b * m := by omega
  exact Nat.eq_of_mul_eq_mul_right hm this

/-- C4: in every round of a merge of width `k` (current half-width `m`,
stride `step`, so `k/2 = step·m` with `m` even and positive), the receiver
subset `isInSubset(k/2, step, base + m/2)` is exactly the sender subset
`isInSubset(k/2, step, base)` shifted by `m/2` (hence `r ↦ r + m/2` is a
bijection from senders to receivers and each sender has a unique paired
receiver), both subsets have exactly `step` distinct ranks, and they are
disjoint. -/
theorem c4_sender_receiver_pairing (k m step base : Nat)
    (hstep : 0 < step) (hm : 0 < m) (heven : 2 ∣ m) (hk : k / 2 = step * m) :
    subsetNodes (k / 2) step (base + m / 2)
      = (subsetNodes (k / 2) step base).map (fun r => r + m / 2)
    ∧ (subsetNodes (k / 2) step base).length = step
    ∧ (subsetNodes (k / 2) step (base + m / 2)).length = step
    ∧ (∀ r ∈ subsetNodes (k / 2) step base,
        r + m / 2 ∈ subsetNodes (k / 2) step (base + m / 2))
    ∧ (∀ r ∈ subsetNodes (k / 2) step base,
        r ∉ subsetNodes (k / 2) step (base + m / 2))
    ∧ (subsetNodes (k / 2) step base).Nodup
    ∧ (subsetNodes (k / 2) step (base + m / 2)).Nodup := by
  obtain ⟨m2, rfl⟩ := heven
  have hm2 : 0 < m2 := by omega
  have hhalf : 2 * m2 / 2 = m2 := by omega
  rw [hk, subsetNodes_eq step (2 * m2) base hstep hm,
    subsetNodes_eq step (2 * m2) (base + 2 * m2 / 2) hstep hm, hhalf]
  refine ⟨?_, by simp, by simp, ?_, ?_, ?_, ?_⟩
  · rw [List.map_map]
    apply List.map_congr_left
    intro j _
    simp only [Function.comp_apply]
    omega
  · intro r hr
    rcases List.mem_map.mp hr with ⟨j, hj, rfl⟩
    exact List.mem_map.mpr ⟨j, hj, by omega⟩
  · intro r hr hr2
    rcases List.mem_map.mp hr with ⟨j, hj, rfl⟩
    rcases List.mem_map.mp hr2 with ⟨j2, hj2, heq⟩
    have heq2 : j2 * (2 * m2) + (base + m2) = j * (2 * m2) + base := heq
    have hmul : (2 * m2) > 0 := by omega
    rcases le_or_lt j j2 with hle | hlt
    · have h1 : j * (2 * m2) ≤ j2 * (2 * m2) := Nat.mul_le_mul_right (2 * m2) hle
      omega
    · have h1 : (j2 + 1) * (2 * m2) ≤ j * (2 * m2) := Nat.mul_le_mul_right (2 * m2) hlt
      have h2 : (j2 + 1) * (2 * m2) = j2 * (2 * m2) + 2 * m2 := Nat.succ_mul j2 (2 * m2)
      omega
  · exact range_mul_add_nodup step (2 * m2) base hm
  · exact range_mul_add_nodup step (2 * m2) (base + m2) hm

theorem c4_witness :
    subsetNodes (8 / 2) 2 (0 + 2 / 2)
      = (subsetNodes (8 / 2) 2 0).map (fun r => r + 2 / 2)
    ∧ (subsetNodes (8 / 2) 2 0).length = 2
    ∧ (subsetNodes (8 / 2) 2 (0 + 2 / 2)).length = 2
    ∧ (∀ r ∈ subsetNodes (8 / 2) 2 0,
        r + 2 / 2 ∈ subsetNodes (8 / 2) 2 (0 + 2 / 2))
    ∧ (∀ r ∈ subsetNodes (8 / 2) 2 0, r ∉ subsetNodes (8 / 2) 2 (0 + 2 / 2))
    ∧ (subsetNodes (8 / 2) 2 0).Nodup
    ∧ (subsetNodes (8 / 2) 2 (0 + 2 / 2)).Nodup :=
  c4_sender_receiver_pairing 8 2 2 0 (by decide) (by decide) (by decide) (by decide)

/-! ## C5: the merge engine refines the specification's round structure -/

theorem isInSubset_eq_senderSpec (m step base r : Nat) (hstep : 0 < step)
    (hm : 0 < m) :
    isInSubset (step * m) step base r = isSenderSpec base m step r := by
  have hiff : r ∈ subsetNodes (step * m) step base ↔
      ((base ≤ r ∧ (r - base) % m = 0) ∧ r < base + step * m) := by
    rw [mem_subsetNodes step m base r hstep hm]
    constructor
    · rintro ⟨j, hj, rfl⟩
      have hmod : j * m % m = 0 := Nat.mul_mod_left j m
      have hsub : j * m + base - base = j * m := by omega
      have hlt : j * m < step * m := Nat.mul_lt_mul_of_lt_of_le hj (Nat.le_refl m) hm
      exact ⟨⟨by omega, by rw [hsub]; exact hmod⟩, by omega⟩
    · rintro ⟨⟨h1, h2⟩, h3⟩
      refine ⟨(r - base) / m, ?_, ?_⟩
      · rw [Nat.div_lt_iff_lt_mul hm]
        omega
      · have hdm : (r - base) / m * m = r - base :=
          Nat.div_mul_cancel (Nat.dvd_of_mod_eq_zero h2)
        omega
  rw [Bool.eq_iff_iff]
  simp only [isInSubset, isSenderSpec, Bool.and_eq_true, decide_eq_true_eq]
  exact hiff

theorem mergeRound_eq_spec (ascending : Bool) (master m step : Nat)
    (hstep : 0 < step) (hm : 0 < m) (bufs : Nat → List Int) (r : Nat) :
    mergeRound ascending (step * m) master m step bufs r
      = mergeRoundSpec ascending master m step bufs r := by
  simp only [mergeRound, mergeRoundSpec, isReceiverSpec]
  rw [isInSubset_eq_senderSpec m step master r hstep hm,
    isInSubset_eq_senderSpec m step (master + m / 2) r hstep hm]

theorem mergeLoop_eq_foldl (ascending : Bool) (half master : Nat) :
    ∀ (a step fuel : Nat) (bufs : Nat → List Int), a ≤ fuel →
      mergeLoop ascending half master fuel (2 ^ a) step bufs
        = (roundsFromExp a step).foldl
            (fun b p => mergeRound ascending half master p.1 p.2 b) bufs := by
  intro a
  induction a with
  | zero =>
    intro step fuel bufs _
    cases fuel with
    | zero => rfl
    | succ f => simp [mergeLoop, roundsFromExp]
  | succ a ih =>
    intro step fuel bufs hfuel
    obtain ⟨f, rfl⟩ : ∃ f, fuel = f + 1 := ⟨fuel - 1, by omega⟩
    have hpos : 0 < 2 ^ a := pow_pos (by omega) a
    have hps : (2 : Nat) ^ (a + 1) = 2 ^ a * 2 := pow_succ 2 a
    have h1 : 1 < 2 ^ (a + 1) := by omega
    have hdiv : 2 ^ (a + 1) / 2 = 2 ^ a := by omega
    rw [mergeLoop, if_pos h1, hdiv, ih (step * 2) f _ (by omega), roundsFromExp,
      List.foldl_cons]

theorem foldl_rounds_eq_spec (ascending : Bool) (master half : Nat) :
    ∀ (a step : Nat), 0 < step → half = step * 2 ^ a →
      ∀ bufs : Nat → List Int,
        (roundsFromExp a step).foldl
            (fun b p => mergeRound ascending half master p.1 p.2 b) bufs
          = (roundsFromExp a step).foldl
              (fun b p => mergeRoundSpec ascending master p.1 p.2 b) bufs := by
  intro a
  induction a with
  | zero => intro step _ _ bufs; rfl
  | succ a ih =>
    intro step hstep hhalf bufs
    rw [roundsFromExp, List.foldl_cons, List.foldl_cons]
    have hround : mergeRound ascending half master (2 ^ (a + 1)) step bufs
        = mergeRoundSpec ascending master (2 ^ (a + 1)) step bufs := by
      funext r
      rw [hhalf]
      exact mergeRound_eq_spec ascending master (2 ^ (a + 1)) step hstep
        (pow_pos (by omega) (a + 1)) bufs r
    rw [hround]
    exact ih (step * 2) (by omega)
      (by rw [hhalf, pow_succ]; ring) _

theorem roundsFromExp_eq_map :
    ∀ (a step : Nat), roundsFromExp a step
      = (List.range a).map (fun j => (2 ^ (a - j), step * 2 ^ j)) := by
  intro a
  induction a with
  | zero => intro step; rfl
  | succ a ih =>
    intro step
    rw [roundsFromExp, ih (step * 2), List.range_succ_eq_map, List.map_cons,
      List.map_map]
    congr 1
    · simp
    · apply List.map_congr_left
      intro j _
      simp only [Function.comp_apply]
      have h1 : (2 : Nat) ^ (a - j) = 2 ^ (a + 1 - j.succ) := by
        congr 1
        omega
      have h2 : step * 2 * 2 ^ j = step * 2 ^ j.succ := by
        rw [pow_succ]
        ring
      rw [h1, h2]

/-- C5: the source's `bitonicSort` group transformation coincides with the
Merge Engine as worded by the specification: the sub-coordinator first
compare-exchanges its full `k`-cell buffer; then the rounds listed by
`roundsFromExp` run — half-width `m` halving from `k/2` down to 2 while the
stride doubles from 1 — with the arithmetically paired senders (`r` sends
`buf[m..2m)` to `r + m/2`, then compare-exchanges its low `m` cells) and
receivers (`r` receives into offsets `[0, m)` from `r - m/2`, then
compare-exchanges those `m` cells); finally the group is gathered at the
sub-coordinator. -/
theorem c5_merge_engine (t : Nat) (ascending : Bool) (master : Nat)
    (bufs : Nat → List Int) :
    (∀ r, bitonicSort ascending (2 ^ (t + 2)) master bufs r
      = mergeEngineSpec ascending t master bufs r)
    ∧ roundsFromExp (t + 1) 1
      = (List.range (t + 1)).map (fun j => (2 ^ (t + 1 - j), 2 ^ j)) := by
  constructor
  · intro r
    have hpos : 0 < 2 ^ (t + 1) := pow_pos (by omega) (t + 1)
    have hps : (2 : Nat) ^ (t + 2) = 2 ^ (t + 1) * 2 := pow_succ 2 (t + 1)
    have hhalf : 2 ^ (t + 2) / 2 = 2 ^ (t + 1) := by omega
    have hfin : mergeLoop ascending (2 ^ (t + 2) / 2) master (2 ^ (t + 2) / 2)
          (2 ^ (t + 2) / 2) 1
          (fun r => if r = master then cswapPre (2 ^ (t + 2)) ascending (bufs r)
            else bufs r)
        = (roundsFromExp (t + 1) 1).foldl
            (fun b p => mergeRoundSpec ascending master p.1 p.2 b)
            (fun r => if r = master then cswapPre (2 ^ (t + 2)) ascending (bufs r)
              else bufs r) := by
      rw [hhalf]
      rw [mergeLoop_eq_foldl ascending (2 ^ (t + 1)) master (t + 1) 1 (2 ^ (t + 1)) _
        (by have := Nat.lt_two_pow (t + 1); omega)]
      exact foldl_rounds_eq_spec ascending master (2 ^ (t + 1)) (t + 1) 1 (by omega)
        (by omega) _
    simp only [bitonicSort, mergeEngineSpec]
    rw [hfin]
  · have h := roundsFromExp_eq_map (t + 1) 1
    rw [h]
    apply List.map_congr_left
    intro j _
    rw [Nat.one_mul]

/-! ## C6: multiset preservation across a merge level -/

theorem cswapPre_length (m : Nat) (ascending : Bool) (l : List Int) :
    (cswapPre m ascending l).length = l.length := by
  rw [cswapPre, List.length_append, compareSwap_length, List.length_take,
    List.length_drop]
  omega

theorem take_cswapPre (m : Nat) (ascending : Bool) (l : List Int)
    (hm : m ≤ l.length) :
    (cswapPre m ascending l).take m = compareSwap ascending (l.take m) := by
  rw [cswapPre]
  exact List.take_left' (by rw [compareSwap_length, List.length_take]; omega)

theorem ms_take_split (l : List Int) (m : Nat) :
    (l.take (2 * m) : Multiset Int) = (l.take m : Multiset Int)
      + ((l.drop m).take m : Multiset Int) := by
  rw [show 2 * m = m + m from by omega, List.take_add, ← Multiset.coe_add]

theorem ms_flatten :
    ∀ L : List (List Int),
      (L.flatten : Multiset Int) = (L.map Multiset.ofList).sum := by
  intro L
  induction L with
  | nil => rfl
  | cons x L ih =>
    rw [List.flatten_cons, ← Multiset.coe_add, ih, List.map_cons, List.sum_cons]

theorem list_sum_range_double (f : Nat → Multiset Int) :
    ∀ s : Nat, ((List.range (s * 2)).map f).sum
      = ((List.range s).map (fun j => f (2 * j) + f (2 * j + 1))).sum := by
  intro s
  induction s with
  | zero => rfl
  | succ s ih =>
    have h1 : (s + 1) * 2 = (s * 2 + 1) + 1 := by omega
    rw [h1, List.range_succ, List.range_succ, List.range_succ, List.map_append,
      List.map_append, List.map_append, List.sum_append, List.sum_append,
      List.sum_append, ih]
    simp only [List.map_cons, List.map_nil, List.sum_cons, List.sum_nil]
    have h2 : 2 * s = s * 2 := by omega
    rw [h2]
    abel

theorem sender_mem_subset (step m master j : Nat) (hstep : 0 < step) (hm : 0 < m)
    (hj : j < step) :
    master + j * m ∈ subsetNodes (step * m) step master :=
  (mem_subsetNodes step m master _ hstep hm).mpr ⟨j, hj, by omega⟩

theorem receiver_mem_subset (step m2 master j : Nat) (hstep : 0 < step)
    (hm2 : 0 < m2) (hj : j < step) :
    master + m2 + j * (2 * m2)
      ∈ subsetNodes (step * (2 * m2)) step (master + m2) :=
  (mem_subsetNodes step (2 * m2) (master + m2) _ hstep (by omega)).mpr
    ⟨j, hj, by omega⟩

theorem receiver_not_sender (step m2 master j : Nat) (hstep : 0 < step)
    (hm2 : 0 < m2) :
    master + m2 + j * (2 * m2) ∉ subsetNodes (step * (2 * m2)) step master := by
  intro hmem
  rcases (mem_subsetNodes step (2 * m2) master _ hstep (by omega)).mp hmem
    with ⟨j2, hj2, heq⟩
  rcases le_or_lt j2 j with hle | hlt
  · have h1 : j2 * (2 * m2) ≤ j * (2 * m2) := Nat.mul_le_mul_right (2 * m2) hle
    omega
  · have h1 : (j + 1) * (2 * m2) ≤ j2 * (2 * m2) := Nat.mul_le_mul_right (2 * m2) hlt
    have h2 : (j + 1) * (2 * m2) = j * (2 * m2) + 2 * m2 := Nat.succ_mul _ _
    omega

theorem mergeRound_sender (ascending : Bool) (master m2 step j : Nat)
    (hm2 : 0 < m2) (hstep : 0 < step) (hj : j < step) (bufs : Nat → List Int) :
    mergeRound ascending (step * (2 * m2)) master (2 * m2) step bufs
        (master + j * (2 * m2))
      = cswapPre (2 * m2) ascending (bufs (master + j * (2 * m2))) := by
  simp only [mergeRound]
  have hcond : isInSubset (step * (2 * m2)) step master (master + j * (2 * m2))
      = true := by
    rw [isInSubset]
    exact decide_eq_true (sender_mem_subset step (2 * m2) master j hstep (by omega) hj)
  rw [if_pos hcond]

theorem mergeRound_receiver (ascending : Bool) (master m2 step j : Nat)
    (hm2 : 0 < m2) (hstep : 0 < step) (hj : j < step) (bufs : Nat → List Int) :
    mergeRound ascending (step * (2 * m2)) master (2 * m2) step bufs
        (master + m2 + j * (2 * m2))
      = cswapPre (2 * m2) ascending
          (((bufs (master + j * (2 * m2))).drop (2 * m2)).take (2 * m2)
            ++ (bufs (master + m2 + j * (2 * m2))).drop (2 * m2)) := by
  simp only [mergeRound]
  rw [show 2 * m2 / 2 = m2 from by omega]
  have hcond1 : ¬(isInSubset (step * (2 * m2)) step master
      (master + m2 + j * (2 * m2)) = true) := by
    rw [isInSubset, decide_eq_true_iff]
    exact receiver_not_sender step m2 master j hstep hm2
  have hcond2 : isInSubset (step * (2 * m2)) step (master + m2)
      (master + m2 + j * (2 * m2)) = true := by
    rw [isInSubset]
    exact decide_eq_true (receiver_mem_subset step m2 master j hstep hm2 hj)
  rw [if_neg hcond1, if_pos hcond2]
  rw [show master + m2 + j * (2 * m2) - m2 = master + j * (2 * m2) from by omega]

/-- One halving round redistributes the active elements without duplicating
or dropping any: the collective multiset over the new actives (spacing `m2`,
count `step·2`) equals the one over the old actives (spacing `2·m2`,
count `step`). -/
theorem mergeRound_activeMS (ascending : Bool) (master m2 step : Nat)
    (hm2 : 0 < m2) (hstep : 0 < step) (bufs : Nat → List Int)
    (hlen : ∀ j, j < step → 2 * (2 * m2) ≤ (bufs (master + j * (2 * m2))).length) :
    activeMS m2 (step * 2) master
        (mergeRound ascending (step * (2 * m2)) master (2 * m2) step bufs)
      = activeMS (2 * m2) step master bufs := by
  rw [activeMS, activeMS, list_sum_range_double]
  apply congrArg List.sum
  apply List.map_congr_left
  intro j hj
  rw [List.mem_range] at hj
  have hrank1 : master + 2 * j * m2 = master + j * (2 * m2) := by ring
  have hrank2 : master + (2 * j + 1) * m2 = master + m2 + j * (2 * m2) := by ring
  rw [hrank1, hrank2]
  rw [mergeRound_sender ascending master m2 step j hm2 hstep hj bufs,
    mergeRound_receiver ascending master m2 step j hm2 hstep hj bufs]
  have hlenj := hlen j hj
  have hrecvlen : (((bufs (master + j * (2 * m2))).drop (2 * m2)).take
      (2 * m2)).length = 2 * m2 := by
    rw [List.length_take, List.length_drop]
    omega
  rw [take_cswapPre (2 * m2) ascending _ (by omega)]
  rw [take_cswapPre (2 * m2) ascending _ (by
    rw [List.length_append, hrecvlen]; omega)]
  rw [List.take_left' hrecvlen]
  rw [compareSwap_perm, compareSwap_perm]
  rw [← ms_take_split]

/-- One halving round leaves every new active node with at least its `2·m2`
meaningful cells. -/
theorem mergeRound_lengths (ascending : Bool) (master m2 step : Nat)
    (hm2 : 0 < m2) (hstep : 0 < step) (bufs : Nat → List Int)
    (hlen : ∀ j, j < step → 2 * (2 * m2) ≤ (bufs (master + j * (2 * m2))).length) :
    ∀ j, j < step * 2 →
      2 * m2 ≤ ((mergeRound ascending (step * (2 * m2)) master (2 * m2) step bufs)
        (master + j * m2)).length := by
  intro j hj
  rcases Nat.even_or_odd j with he | ho
  · obtain ⟨j2, hj2⟩ := he
    have hj2lt : j2 < step := by omega
    have hr : master + j * m2 = master + j2 * (2 * m2) := by
      subst hj2; ring
    rw [hr, mergeRound_sender ascending master m2 step j2 hm2 hstep hj2lt bufs,
      cswapPre_length]
    have := hlen j2 hj2lt
    omega
  · obtain ⟨j2, hj2⟩ := ho
    have hj2lt : j2 < step := by omega
    have hr : master + j * m2 = master + m2 + j2 * (2 * m2) := by
      subst hj2; ring
    rw [hr, mergeRound_receiver ascending master m2 step j2 hm2 hstep hj2lt bufs,
      cswapPre_length, List.length_append, List.length_take, List.length_drop]
    have := hlen j2 hj2lt
    omega

theorem mergeLoop_one (ascending : Bool) (half master : Nat) (fuel step : Nat)
    (bufs : Nat → List Int) :
    mergeLoop ascending half master fuel 1 step bufs = bufs := by
  cases fuel with
  | zero => rfl
  | succ f => simp [mergeLoop]

/-- The halving rounds of `bitonicSort`, run from half-width `2^(a+1)` down
to 2, preserve the collective multiset of the active elements and leave
every rank of the group with at least 2 meaningful cells. -/
theorem mergeLoop_activeMS (ascending : Bool) (master : Nat) :
    ∀ (a step fuel : Nat) (bufs : Nat → List Int), 0 < step → a + 1 ≤ fuel →
      (∀ j, j < step → 2 * 2 ^ (a + 1) ≤ (bufs (master + j * 2 ^ (a + 1))).length) →
      activeMS 1 (step * 2 ^ (a + 1)) master
          (mergeLoop ascending (step * 2 ^ (a + 1)) master fuel (2 ^ (a + 1)) step bufs)
        = activeMS (2 ^ (a + 1)) step master bufs
      ∧ (∀ j, j < step * 2 ^ (a + 1) →
          2 ≤ ((mergeLoop ascending (step * 2 ^ (a + 1)) master fuel (2 ^ (a + 1))
            step bufs) (master + j)).length) := by
  intro a
  induction a with
  | zero =>
    intro step fuel bufs hstep hfuel hlen
    obtain ⟨f, rfl⟩ : ∃ f, fuel = f + 1 := ⟨fuel - 1, by omega⟩
    have hpow : (2 : Nat) ^ (0 + 1) = 2 * 1 := by norm_num
    rw [hpow] at hlen ⊢
    rw [mergeLoop, if_pos (by omega : 1 < 2 * 1)]
    rw [show (2 * 1) / 2 = 1 from by norm_num]
    rw [mergeLoop_one]
    constructor
    · have h := mergeRound_activeMS ascending master 1 step (by omega) hstep bufs hlen
      rw [show step * 2 = step * (2 * 1) from by ring] at h
      exact h
    · intro j hj
      have h2 := mergeRound_lengths ascending master 1 step (by omega) hstep bufs hlen
        j (by omega)
      rw [show master + j * 1 = master + j from by ring] at h2
      omega
  | succ a ih =>
    intro step fuel bufs hstep hfuel hlen
    obtain ⟨f, rfl⟩ : ∃ f, fuel = f + 1 := ⟨fuel - 1, by omega⟩
    have hpos : 0 < 2 ^ (a + 1) := pow_pos (by omega) _
    have hps : (2 : Nat) ^ (a + 1 + 1) = 2 ^ (a + 1) * 2 := pow_succ 2 (a + 1)
    rw [show (2 : Nat) ^ (a + 1 + 1) = 2 * 2 ^ (a + 1) from by omega] at hlen ⊢
    rw [mergeLoop, if_pos (by omega : 1 < 2 * 2 ^ (a + 1))]
    rw [show (2 * 2 ^ (a + 1)) / 2 = 2 ^ (a + 1) from by omega]
    rw [show step * (2 * 2 ^ (a + 1)) = step * 2 * 2 ^ (a + 1) from by ring]
    have hms := mergeRound_activeMS ascending master (2 ^ (a + 1)) step hpos hstep
      bufs hlen
    have hlens := mergeRound_lengths ascending master (2 ^ (a + 1)) step hpos hstep
      bufs hlen
    rw [show step * (2 * 2 ^ (a + 1)) = step * 2 * 2 ^ (a + 1) from by ring] at hms hlens
    have hih := ih (step * 2) f
      (mergeRound ascending (step * 2 * 2 ^ (a + 1)) master (2 * 2 ^ (a + 1)) step bufs)
      (by omega) (by omega) hlens
    exact ⟨hih.1.trans hms, hih.2⟩

theorem activeMS_one (m master : Nat) (bufs : Nat → List Int) :
    activeMS m 1 master bufs = ((bufs master).take (2 * m) : Multiset Int) := by
  rw [activeMS, show List.range 1 = [0] from rfl, List.map_cons, List.map_nil,
    List.sum_cons, List.sum_nil, add_zero, show master + 0 * m = master from by ring]

theorem gatherGroup_ms (n master : Nat) (bufs : Nat → List Int) :
    (gatherGroup n master bufs : Multiset Int) = activeMS 1 (n / 2) master bufs := by
  rw [gatherGroup, ms_flatten, activeMS, List.map_map]
  apply congrArg List.sum
  apply List.map_congr_left
  intro j _
  simp only [Function.comp_apply]
  rw [show master + j * 1 = master + j from by ring,
    show 2 * 1 = 2 from by norm_num]

theorem mergeLoop_ms_top (ascending : Bool) (master t : Nat)
    (start : Nat → List Int) (h : 2 * 2 ^ (t + 1) ≤ (start master).length) :
    activeMS 1 (2 ^ (t + 1)) master
        (mergeLoop ascending (2 ^ (t + 1)) master (2 ^ (t + 1)) (2 ^ (t + 1)) 1 start)
      = ((start master).take (2 * 2 ^ (t + 1)) : Multiset Int) := by
  have hlen : ∀ j, j < 1 →
      2 * 2 ^ (t + 1) ≤ (start (master + j * 2 ^ (t + 1))).length := by
    intro j hj
    have hj0 : j = 0 := by omega
    subst hj0
    rw [show master + 0 * 2 ^ (t + 1) = master from by ring]
    exact h
  have hloop := (mergeLoop_activeMS ascending master t 1 (2 ^ (t + 1)) start
    (by omega) (by have := Nat.lt_two_pow (t + 1); omega) hlen).1
  simp only [one_mul] at hloop
  rw [hloop, activeMS_one]

/-- C6: a full merge of width `k = 2^(t+2)` — the sub-coordinator's initial
compare-exchange, the halving rounds with their exchanges, and the terminal
gather — neither duplicates nor drops any element: the `k`-element sequence
assembled at the sub-coordinator after the merge has exactly the same
multiset as the `k`-element sub-sequence the sub-coordinator held before. -/
theorem c6_multiset_preserved (t : Nat) (ascending : Bool) (master : Nat)
    (bufs : Nat → List Int) (hL : 2 ^ (t + 2) ≤ (bufs master).length) :
    (bitonicSort ascending (2 ^ (t + 2)) master bufs master : Multiset Int)
      = ((bufs master).take (2 ^ (t + 2)) : Multiset Int) := by
  have hpos : 0 < 2 ^ (t + 1) := pow_pos (by omega) _
  have hps : (2 : Nat) ^ (t + 2) = 2 ^ (t + 1) * 2 := pow_succ 2 (t + 1)
  have hhalf : 2 ^ (t + 2) / 2 = 2 ^ (t + 1) := by omega
  simp only [bitonicSort, if_true]
  rw [hhalf, gatherGroup_ms, hhalf]
  have hstartmaster :
      (if master = master then cswapPre (2 ^ (t + 2)) ascending (bufs master)
        else bufs master) = cswapPre (2 ^ (t + 2)) ascending (bufs master) :=
    if_pos rfl
  rw [mergeLoop_ms_top ascending master t _ (by
    rw [hstartmaster, cswapPre_length]; omega)]
  rw [hstartmaster]
  rw [show 2 * 2 ^ (t + 1) = 2 ^ (t + 2) from by omega]
  rw [take_cswapPre _ _ _ (by omega)]
  exact compareSwap_perm ascending ((bufs master).take (2 ^ (t + 2)))

theorem c6_witness :
    (bitonicSort true (2 ^ (0 + 2)) 0 (fun _ => [3, 1, 2, 0]) 0 : Multiset Int)
      = ((([3, 1, 2, 0] : List Int)).take (2 ^ (0 + 2)) : Multiset Int) :=
  c6_multiset_preserved 0 true 0 (fun _ => [3, 1, 2, 0]) (by decide)

end BitonicSort

